import Mathlib

/-!
Shallow embedding of the HeapArray repository.

The repository consists of a min-max-heap library (`src/mmheap.h`) operating on a
caller-supplied `int` buffer with an explicit live count, and a partitioned
container (`src/heaparray.h`, class `HeapArray`) that organises one contiguous
buffer into partitions of odd sizes 1, 3, 5, ..., each maintained as a min-max
heap via the library.

Modelling conventions:
* the buffer is a `List Int`; a read `heap_array[i]` is `getE a i` (`List.getD`
  with default 0; indices past the allocation occur only on paths that are
  undefined behaviour in the C++ source and are noted where they matter);
* a write `heap_array[i] = v` is `List.set` (a no-op beyond the allocation,
  again only reachable on undefined-behaviour paths);
* `size_t` values are `Nat`; the one reachable spot where a `size_t`
  subtraction can wrap (`count - 1` after `--count` in `mm_heap_remove_min`)
  uses `size_sub_one`, which models the wrap-around to `2^64 - 1` explicitly;
* C++ loops become structural recursion on an explicit fuel argument whose
  initial value provably dominates the number of iterations the loop can make;
* functions that can `throw` return `Except CppErr`, with one constructor per
  C++ exception type used by the sources.
-/

set_option maxRecDepth 20000

/-- Error kinds, one per C++ exception type thrown by the sources
(`std::runtime_error`, `std::range_error`, `std::length_error`,
`std::out_of_range`). -/
inductive CppErr where
  | runtimeErr
  | rangeErr
  | lengthErr
  | outOfRangeErr
deriving DecidableEq

instance {ε α : Type} [DecidableEq ε] [DecidableEq α] : DecidableEq (Except ε α) := fun a b =>
  match a, b with
  | .error e, .error f =>
    if h : e = f then isTrue (by rw [h]) else isFalse (fun hh => by cases hh; exact h rfl)
  | .ok x, .ok y =>
    if h : x = y then isTrue (by rw [h]) else isFalse (fun hh => by cases hh; exact h rfl)
  | .error _, .ok _ => isFalse (fun hh => by cases hh)
  | .ok _, .error _ => isFalse (fun hh => by cases hh)

/-- Read of `a[i]`, with reads past the allocation modelled as 0. -/
def getE (a : List Int) (i : Nat) : Int := a.getD i 0

/-- `std::swap(heap_array[i], heap_array[j])`. -/
def swapL (a : List Int) (i j : Nat) : List Int :=
  let x := getE a i
  let y := getE a j
  (a.set i y).set j x

/-! Index arithmetic (`mmheap.h` lines 41-47). -/

/-- `parent(i) = (i - 1) / 2`. -/
def parent (i : Nat) : Nat := (i - 1) / 2

/-- `has_parent(i) = i > 0`. -/
def has_parent (i : Nat) : Bool := i > 0

/-- `left(i) = 2 i + 1`. -/
def left (i : Nat) : Nat := 2 * i + 1

/-- `right(i) = 2 i + 2`. -/
def right (i : Nat) : Nat := 2 * i + 2

/-- `gparent(i) = parent(parent(i))`. -/
def gparent (i : Nat) : Nat := parent (parent i)

/-- `has_gparent(i) = i > 2`. -/
def has_gparent (i : Nat) : Bool := i > 2

/-- `child(i, c)`: is `c` a direct child of `i`? -/
def child (i c : Nat) : Bool := c == left i || c == right i

/-- Fuelled floor-log₂ (`fuel ≥ n` always suffices since the argument halves). -/
def log_2F : Nat → Nat → Nat
  | 0, _ => 0
  | fuel+1, n => if n ≥ 2 then log_2F fuel (n / 2) + 1 else 0

/-- `log_2`: the bit-twiddling routine computes the floor of the base-2
logarithm (equal to `Nat.log2`, see `log_2_eq_log2`). -/
def log_2 (i : Nat) : Nat := log_2F i i

/-- `min_level(i)`: `i` lies on a min level iff `log_2(i + 1)` is even
(the root, `i = 0`, is a min level). -/
def min_level (i : Nat) : Bool :=
  if i > 0 then log_2 (i + 1) % 2 == 0 else true

/-! Child / grandchild selection (`mmheap.h` lines 96-234). -/

/-- `min_child`: whether `i` has a child within `[0, r]`, and the index of its
least-valued child. -/
def min_child (a : List Int) (i r : Nat) : Bool × Nat :=
  if left i ≤ r then
    let m := left i
    let m := if right i ≤ r ∧ getE a (right i) < getE a m then right i else m
    (true, m)
  else (false, 0)

/-- `min_gchild`: whether `i` has a grandchild within `[0, r]`, and the index of
its least-valued grandchild. -/
def min_gchild (a : List Int) (i r : Nat) : Bool × Nat :=
  let l := left i
  let rr := right i
  if left l ≤ r then
    let m := left l
    let m := if right l ≤ r ∧ getE a (right l) < getE a m then right l else m
    let m := if left rr ≤ r ∧ getE a (left rr) < getE a m then left rr else m
    let m := if right rr ≤ r ∧ getE a (right rr) < getE a m then right rr else m
    (true, m)
  else (false, 0)

/-- `min_child_or_gchild`: least-valued child or grandchild of `i` in `[0, r]`. -/
def min_child_or_gchild (a : List Int) (i r : Nat) : Bool × Nat :=
  let m := min_child a i r
  if m.1 then
    let gm := min_gchild a i r
    (true, if gm.1 ∧ getE a gm.2 < getE a m.2 then gm.2 else m.2)
  else m

/-- `max_child`: whether `i` has a child within `[0, r]`, and the index of its
greatest-valued child. -/
def max_child (a : List Int) (i r : Nat) : Bool × Nat :=
  if left i ≤ r then
    let m := left i
    let m := if right i ≤ r ∧ getE a m < getE a (right i) then right i else m
    (true, m)
  else (false, 0)

/-- `max_gchild`: whether `i` has a grandchild within `[0, r]`, and the index of
its greatest-valued grandchild. -/
def max_gchild (a : List Int) (i r : Nat) : Bool × Nat :=
  let l := left i
  let rr := right i
  if left l ≤ r then
    let m := left l
    let m := if right l ≤ r ∧ getE a m < getE a (right l) then right l else m
    let m := if left rr ≤ r ∧ getE a m < getE a (left rr) then left rr else m
    let m := if right rr ≤ r ∧ getE a m < getE a (right rr) then right rr else m
    (true, m)
  else (false, 0)

/-- `max_child_or_gchild`: greatest-valued child or grandchild of `i` in `[0, r]`. -/
def max_child_or_gchild (a : List Int) (i r : Nat) : Bool × Nat :=
  let m := max_child a i r
  if m.1 then
    let gm := max_gchild a i r
    (true, if gm.1 ∧ getE a m.2 < getE a gm.2 then gm.2 else m.2)
  else m

/-! Sift-down (`mmheap.h` lines 243-312).  The `while` loops become structural
recursion on fuel; the wrapper passes `r + 1 - i` fuel, which dominates the
iteration count because the sift index strictly increases on every iteration
that continues and the loop guard requires `left i ≤ r` (hence `i < r`). -/

/-- Loop body of `mmheap_sift_down_min`, fuelled. -/
def mmheap_sift_down_minF : Nat → List Int → Nat → Nat → List Int
  | 0, a, _, _ => a
  | fuel+1, a, i, r =>
    if left i ≤ r then
      let m := (min_child_or_gchild a i r).2
      if child i m then
        if getE a m < getE a i then swapL a m i else a
      else
        if getE a m < getE a i then
          let a1 := swapL a m i
          let a2 := if getE a1 (parent m) < getE a1 m then swapL a1 m (parent m) else a1
          mmheap_sift_down_minF fuel a2 m r
        else a
    else a

/-- `mmheap_sift_down_min(heap_array, sift_index, right_index)`. -/
def mmheap_sift_down_min (a : List Int) (i r : Nat) : List Int :=
  mmheap_sift_down_minF (r + 1 - i) a i r

/-- Loop body of `mmheap_sift_down_max`, fuelled. -/
def mmheap_sift_down_maxF : Nat → List Int → Nat → Nat → List Int
  | 0, a, _, _ => a
  | fuel+1, a, i, r =>
    if left i ≤ r then
      let m := (max_child_or_gchild a i r).2
      if child i m then
        if getE a i < getE a m then swapL a m i else a
      else
        if getE a i < getE a m then
          let a1 := swapL a m i
          let a2 := if getE a1 m < getE a1 (parent m) then swapL a1 m (parent m) else a1
          mmheap_sift_down_maxF fuel a2 m r
        else a
    else a

/-- `mmheap_sift_down_max(heap_array, sift_index, right_index)`. -/
def mmheap_sift_down_max (a : List Int) (i r : Nat) : List Int :=
  mmheap_sift_down_maxF (r + 1 - i) a i r

/-- `mmheap_sift_down`: dispatch on the level parity of the sift index. -/
def mmheap_sift_down (a : List Int) (i r : Nat) : List Int :=
  if min_level i then mmheap_sift_down_min a i r else mmheap_sift_down_max a i r

/-! Bubble-up (`mmheap.h` lines 320-375). -/

/-- Loop body of `bubble_up_min`, fuelled (the bubble index strictly decreases,
so `i + 1` fuel always suffices). -/
def bubble_up_minF : Nat → List Int → Nat → List Int
  | 0, a, _ => a
  | fuel+1, a, b =>
    if has_gparent b ∧ getE a b < getE a (gparent b) then
      bubble_up_minF fuel (swapL a b (gparent b)) (gparent b)
    else a

/-- `bubble_up_min(heap_array, bubble_index)`. -/
def bubble_up_min (a : List Int) (b : Nat) : List Int := bubble_up_minF (b + 1) a b

/-- Loop body of `bubble_up_max`, fuelled. -/
def bubble_up_maxF : Nat → List Int → Nat → List Int
  | 0, a, _ => a
  | fuel+1, a, b =>
    if has_gparent b ∧ getE a (gparent b) < getE a b then
      bubble_up_maxF fuel (swapL a b (gparent b)) (gparent b)
    else a

/-- `bubble_up_max(heap_array, bubble_index)`. -/
def bubble_up_max (a : List Int) (b : Nat) : List Int := bubble_up_maxF (b + 1) a b

/-- `bubble_up(heap_array, bubble_index)`. -/
def bubble_up (a : List Int) (b : Nat) : List Int :=
  if min_level b then
    if has_parent b ∧ getE a (parent b) < getE a b then
      bubble_up_max (swapL a b (parent b)) (parent b)
    else
      bubble_up_min a b
  else
    if has_parent b ∧ getE a b < getE a (parent b) then
      bubble_up_min (swapL a b (parent b)) (parent b)
    else
      bubble_up_max a b

/-! Whole-heap operations (`mmheap.h` lines 385-593). -/

/-- Descending loop of `make_mm_heap`: the counter argument is `current + 1`. -/
def make_mm_heap_loop (sz : Nat) : Nat → List Int → List Int
  | 0, a => a
  | c+1, a => make_mm_heap_loop sz c (mmheap_sift_down a c (sz - 1))

/-- `make_mm_heap(heap_array, size)`: Floyd-style heap construction. -/
def make_mm_heap (a : List Int) (sz : Nat) : List Int :=
  if sz > 1 then make_mm_heap_loop sz (parent (sz - 1) + 1) a else a

/-- `mm_heap_add(value, heap_array, count, max_size)`; returns the updated
buffer and count. -/
def mm_heap_add (value : Int) (a : List Int) (count max_size : Nat) :
    Except CppErr (List Int × Nat) :=
  if count < max_size then
    .ok (bubble_up (a.set count value) count, count + 1)
  else .error .runtimeErr

/-- `mm_heap_max(heap_array, count)`. -/
def mm_heap_max (a : List Int) (count : Nat) : Except CppErr Int :=
  if count < 1 then .error .runtimeErr
  else
    let m := max_child a 0 (count - 1)
    .ok (if m.1 then getE a m.2 else getE a 0)

/-- `mm_heap_ripple_add(value, heap_array, count, max_size)`; returns
`((overflowed, shifted-out value), (buffer, count))`. -/
def mm_heap_ripple_add (value : Int) (a : List Int) (count max_size : Nat) :
    Except CppErr ((Bool × Int) × (List Int × Nat)) :=
  let rippled := count == max_size
  if !rippled then do
    let r ← mm_heap_add value a count max_size
    .ok ((false, 0), r)
  else
    let m := if max_size > 1 then (max_child a 0 (max_size - 1)).2 else 0
    let max_value := getE a m
    let a1 := a.set m value
    let a2 :=
      if max_size > 1 then
        let a1 := if value < getE a1 0 then swapL a1 0 m else a1
        mmheap_sift_down a1 m (max_size - 1)
      else a1
    .ok ((true, max_value), (a2, count))

/-- `mm_heap_replace_at_index(new_value, index, heap_array, count)`; returns
the replaced old value and the updated buffer. -/
def mm_heap_replace_at_index (new_value : Int) (index : Nat) (a : List Int) (count : Nat) :
    Except CppErr (Int × List Int) :=
  if count = 0 then .error .runtimeErr
  else if index > count then .error .rangeErr
  else
    let old_value := getE a index
    let a0 := a.set index new_value
    let a1 :=
      if min_level index then
        if new_value < old_value then bubble_up_min a0 index
        else
          let a0 := if has_parent index ∧ getE a0 (parent index) < new_value then
                      swapL a0 (parent index) index
                    else a0
          mmheap_sift_down_min a0 index (count - 1)
      else
        if old_value < new_value then bubble_up_max a0 index
        else
          let a0 := if has_parent index ∧ new_value < getE a0 (parent index) then
                      swapL a0 (parent index) index
                    else a0
          mmheap_sift_down_max a0 index (count - 1)
    .ok (old_value, a1)

/-- `mm_heap_remove_at_index(index, heap_array, count)`; returns the removed
value, the updated buffer and the updated count. -/
def mm_heap_remove_at_index (index : Nat) (a : List Int) (count : Nat) :
    Except CppErr (Int × List Int × Nat) :=
  if count = 0 then .error .runtimeErr
  else if index > count then .error .rangeErr
  else do
    let r ← mm_heap_replace_at_index (getE a (count - 1)) index a count
    .ok (r.1, r.2, count - 1)

/-- `size_t` subtraction of one: `0 - 1` wraps to `2^64 - 1`. -/
def size_sub_one (n : Nat) : Nat := if n = 0 then 2 ^ 64 - 1 else n - 1

/-- `mm_heap_remove_min(heap_array, count)`; returns the removed value, the
updated buffer and the updated count.  The `count - 1` handed to the final
sift-down happens after `--count` and is a `size_t` subtraction, hence
`size_sub_one`. -/
def mm_heap_remove_min (a : List Int) (count : Nat) :
    Except CppErr (Int × List Int × Nat) :=
  if count = 0 then .error .runtimeErr
  else
    let value := getE a 0
    let a1 := swapL a 0 (count - 1)
    let c := count - 1
    .ok (value, mmheap_sift_down a1 0 (size_sub_one c), c)

/-- `mm_heap_remove_max(heap_array, count)`; returns the value the function
reports as removed, the updated buffer and the updated count.  Note the source
assigns `value = m.second`, the *index* found by `max_child`. -/
def mm_heap_remove_max (a : List Int) (count : Nat) :
    Except CppErr (Int × List Int × Nat) :=
  if count = 0 then .error .runtimeErr
  else
    let value0 := getE a 0
    let m := max_child a 0 (count - 1)
    let value : Int := if m.1 then (m.2 : Int) else value0
    let idx := if m.1 then m.2 else 0
    do
      let r ← mm_heap_remove_at_index idx a count
      .ok (value, r.2.1, r.2.2)

/-! The `HeapArray` container (`heaparray.h`).  The calls the container makes
into the heap library (`heap_insert_circular`, `heap_remove_min`,
`heap_replace_at_index`, `heap_remove_at_index`, `heap_max`, `make_heap`) are
the library functions above (`mm_heap_ripple_add`, `mm_heap_remove_min`, ...),
applied to the sub-buffer `a + partition_start p`, modelled as
`s.a.drop (partition_start p)` with the result written back over that suffix. -/

/-- `MIN_HEAPARRAY_ALLOCATION`. -/
def MIN_HEAPARRAY_ALLOCATION : Nat := 4

/-- Search loop for `natCeilSqrt`: the least `k ≥` the start value with
`n ≤ k * k` (fuel `n + 1` from start 0 always suffices since `n ≤ n * n`). -/
def ceilSqrtF : Nat → Nat → Nat → Nat
  | 0, _, k => k
  | fuel+1, n, k => if n ≤ k * k then k else ceilSqrtF fuel n (k + 1)

/-- `static_cast<size_t>(ceil(sqrt(n)))`, i.e. the least `k` with `n ≤ k * k`
(the double-precision computation is exact for every value below `2^52`, far
beyond any reachable size). -/
def natCeilSqrt (n : Nat) : Nat := ceilSqrtF (n + 1) n 0

/-- The `HeapArray` object state: physical `storage`, live `count`, the
fixed-size flag and the owned buffer. -/
structure HeapArray where
  storage : Nat
  count : Nat
  fixed : Bool
  a : List Int
deriving DecidableEq

/-- The default-constructed `HeapArray`: `storage = count = 0`,
`fixed = false`, null buffer. -/
def HeapArray.init : HeapArray := ⟨0, 0, false, []⟩

/-- `HeapArray(reserve_size, allow_resize)`: allocate exactly `reserve_size`
slots (uninitialised memory modelled as zeros). -/
def HeapArray.reserve (reserve_size : Nat) (allow_resize : Bool) : HeapArray :=
  ⟨reserve_size, 0, !allow_resize, List.replicate reserve_size 0⟩

/-- `_resize(new_size, round_up)`. -/
def HeapArray.resize (s : HeapArray) (new_size : Nat) (round_up : Bool) :
    Except CppErr HeapArray :=
  if s.fixed then .error .runtimeErr
  else if new_size > 0 then
    let ns := if round_up then natCeilSqrt new_size * natCeilSqrt new_size else new_size
    let kept := s.a.take (min s.count ns)
    .ok ⟨ns, s.count, s.fixed, kept ++ List.replicate (ns - kept.length) 0⟩
  else .ok ⟨0, 0, s.fixed, []⟩

/-- `_grow()`: double the allocation (or start at `MIN_HEAPARRAY_ALLOCATION`)
and resize with rounding up. -/
def HeapArray.grow (s : HeapArray) : Except CppErr HeapArray :=
  let next_size := if s.storage * 2 = 0 then MIN_HEAPARRAY_ALLOCATION else s.storage * 2
  s.resize next_size true

/-- `_final_partition()`. -/
def HeapArray.final_partition (s : HeapArray) : Nat :=
  if s.count > 0 then natCeilSqrt s.count - 1 else 0

/-- `_partition_size(p) = 2 p + 1`. -/
def partition_size (p : Nat) : Nat := p * 2 + 1

/-- `_partition_start(p) = p^2`. -/
def partition_start (p : Nat) : Nat := p * p

/-- `_partition_end(p) = p^2 + 2 p`. -/
def partition_end (p : Nat) : Nat := p * p + p * 2

/-- `_count_in_partition(p)` (a `size_t` computation; `count - p*p` is a
truncated subtraction exactly as reachable states keep `count ≥ p*p`
whenever the branch is taken). -/
def HeapArray.count_in_partition (s : HeapArray) (p : Nat) : Nat :=
  if p ≥ s.final_partition then s.count - p * p else partition_size p

/-- `_max_in_partition(p)`. -/
def HeapArray.max_in_partition (s : HeapArray) (p : Nat) : Except CppErr Int :=
  mm_heap_max (s.a.drop (partition_start p)) (s.count_in_partition p)

/-- `_range_in_partition(p)`: the pair `(min, max)` of partition `p`. -/
def HeapArray.range_in_partition (s : HeapArray) (p : Nat) : Except CppErr (Int × Int) := do
  let mx ← mm_heap_max (s.a.drop (partition_start p)) (s.count_in_partition p)
  .ok (getE s.a (partition_start p), mx)

/-- Binary-search loop of `_find_partition`, fuelled (the search interval
shrinks every iteration). -/
def HeapArray.fpLoop (s : HeapArray) (value : Int) (for_insert : Bool) :
    Nat → Nat → Nat → Except CppErr Nat
  | 0, _, _ => .ok 0
  | fuel+1, lo, hi =>
    if lo ≤ hi then do
      let mid := (lo + hi) / 2
      let range ← s.range_in_partition mid
      if range.1 ≤ value ∧ value ≤ range.2 then .ok mid
      else do
        let ins ←
          if for_insert then do
            let condA ←
              if 0 < mid ∧ value ≤ range.2 then do
                let mx ← s.max_in_partition (mid - 1)
                pure (decide (mx ≤ value))
              else pure false
            pure (condA || decide (mid = 0 ∧ value ≤ range.2) ||
                  decide (mid = s.final_partition ∧ range.1 ≤ value))
          else pure false
        if ins then .ok mid
        else if range.2 < value then s.fpLoop value for_insert fuel (mid + 1) hi
        else if mid = 0 then .ok 0
        else s.fpLoop value for_insert fuel lo (mid - 1)
    else .ok 0

/-- `_find_partition(value, for_insert)`. -/
def HeapArray.find_partition (s : HeapArray) (value : Int) (for_insert : Bool) :
    Except CppErr Nat :=
  if s.count > 0 then s.fpLoop value for_insert (s.final_partition + 2) 0 s.final_partition
  else .ok 0

/-- Linear scan loop of `_find`, fuelled; scans buffer indices from
`partition_start p` through `partition_end p` inclusive. -/
def HeapArray.scanLoop (s : HeapArray) (value : Int) (pend : Nat) :
    Nat → Nat → Bool × Nat
  | 0, _ => (false, 0)
  | fuel+1, i =>
    if i ≤ pend then
      if getE s.a i = value then (true, i)
      else s.scanLoop value pend fuel (i + 1)
    else (false, 0)

/-- `_find(value)`: `(found, buffer index, partition, index inside partition)`. -/
def HeapArray.findT (s : HeapArray) (value : Int) :
    Except CppErr (Bool × Nat × Nat × Nat) := do
  let p ← s.find_partition value false
  let fi :=
    if s.count > 0 then
      s.scanLoop value (partition_end p) (partition_size p + 1) (partition_start p)
    else (false, 0)
  .ok (fi.1, fi.2, p, fi.2 - partition_start p)

/-- `find(value)`. -/
def HeapArray.find (s : HeapArray) (value : Int) : Except CppErr (Bool × Nat) := do
  let t ← s.findT value
  .ok (t.1, t.2.1)

/-- `contains(value)`. -/
def HeapArray.contains (s : HeapArray) (value : Int) : Except CppErr Bool :=
  if s.count > 0 then do
    let f ← s.find value
    .ok f.1
  else .ok false

/-- Forward-ripple loop of `insert`, fuelled; `s` supplies the partition
arithmetic (its `count` is unchanged until the loop ends, as in the source)
while the buffer is threaded through. -/
def HeapArray.rippleLoop (s : HeapArray) :
    Nat → List Int → Int → Nat → Except CppErr (List Int)
  | 0, a, _, _ => .ok a
  | fuel+1, a, value, p => do
    let p_count := s.count_in_partition p
    let r ← mm_heap_ripple_add value (a.drop (partition_start p)) p_count (partition_size p)
    let a2 := a.take (partition_start p) ++ r.2.1
    if r.1.1 then s.rippleLoop fuel a2 r.1.2 (p + 1)
    else .ok a2

/-- `insert(value)`. -/
def HeapArray.insert (s : HeapArray) (value : Int) : Except CppErr HeapArray := do
  let s ←
    if s.count = s.storage then
      if s.fixed then .error .lengthErr else s.grow
    else pure s
  let p ← s.find_partition value true
  let a2 ← s.rippleLoop (s.final_partition + 3) s.a value p
  .ok ⟨s.storage, s.count + 1, s.fixed, a2⟩

/-- Backward-ripple loop of `remove` (`for(p = final-1; p > partition; --p)`),
fuelled; carries `(buffer, ripple value)`. -/
def HeapArray.backLoop (s : HeapArray) (pTarget : Nat) :
    Nat → List Int → Int → Nat → Except CppErr (List Int × Int)
  | 0, a, v, _ => .ok (a, v)
  | fuel+1, a, v, p =>
    if pTarget < p then do
      let r ← mm_heap_replace_at_index v 0 (a.drop (partition_start p))
                (s.count_in_partition p)
      s.backLoop pTarget fuel (a.take (partition_start p) ++ r.2) r.1 (p - 1)
    else .ok (a, v)

/-- `remove(value)`: returns `(removed?, new state)`. -/
def HeapArray.remove (s : HeapArray) (value : Int) : Except CppErr (Bool × HeapArray) := do
  let t ← s.findT value
  if t.1 then
    let prt := t.2.2.1
    let idx_in_part := t.2.2.2
    if prt = s.final_partition then do
      let r ← mm_heap_remove_at_index idx_in_part (s.a.drop (partition_start prt))
                (s.count_in_partition prt)
      .ok (true, ⟨s.storage, s.count - 1, s.fixed, s.a.take (partition_start prt) ++ r.2.1⟩)
    else do
      let fp := s.final_partition
      let r1 ← mm_heap_remove_min (s.a.drop (partition_start fp)) (s.count_in_partition fp)
      let a1 := s.a.take (partition_start fp) ++ r1.2.1
      let bl ← s.backLoop prt fp a1 r1.1 (fp - 1)
      let r3 ← mm_heap_replace_at_index bl.2 idx_in_part
                 (bl.1.drop (partition_start prt)) (s.count_in_partition prt)
      .ok (true, ⟨s.storage, s.count - 1, s.fixed, bl.1.take (partition_start prt) ++ r3.2⟩)
  else .ok (false, s)

/-- `min()`: the first buffer element (no emptiness check in the source). -/
def HeapArray.min (s : HeapArray) : Int := getE s.a 0

/-- `max()`: `heap_max` over the final partition. -/
def HeapArray.max (s : HeapArray) : Except CppErr Int :=
  mm_heap_max (s.a.drop (partition_start s.final_partition))
    (s.count_in_partition s.final_partition)

/-- `operator[](index)`: bounds-checked read-only access. -/
def HeapArray.get (s : HeapArray) (index : Nat) : Except CppErr Int :=
  if index ≥ s.count then .error .outOfRangeErr else .ok (getE s.a index)

/-- `size()`. -/
def HeapArray.size (s : HeapArray) : Nat := s.count

/-- Make-heap sweep of `_init_heaps` over partitions `1 .. final`, fuelled. -/
def HeapArray.ihLoop (s : HeapArray) : Nat → Nat → List Int → List Int
  | 0, _, a => a
  | fuel+1, p, a =>
    if p ≤ s.final_partition then
      let a2 := a.take (partition_start p) ++
        make_mm_heap (a.drop (partition_start p)) (s.count_in_partition p)
      s.ihLoop fuel (p + 1) a2
    else a

/-- `_init_heaps()`: sort the live prefix ascending, then make a min-max heap
out of every partition after the trivial partition 0. -/
def HeapArray.init_heaps (s : HeapArray) : HeapArray :=
  let sorted := (s.a.take s.count).mergeSort (fun x y => x ≤ y)
  let a0 := sorted ++ s.a.drop s.count
  ⟨s.storage, s.count, s.fixed, s.ihLoop s.final_partition 1 a0⟩

/-- `HeapArray(begin, end, physical_end, allow_resize)` with `physical_end`
null: size the buffer from the range (rounding up only when resize is
allowed), copy, bulk-build, then set the fixed flag. -/
def HeapArray.fromRange (xs : List Int) (allow_resize : Bool) : Except CppErr HeapArray := do
  let s ← HeapArray.init.resize xs.length allow_resize
  let s1 : HeapArray := ⟨s.storage, xs.length, s.fixed, xs ++ s.a.drop xs.length⟩
  let s2 := s1.init_heaps
  .ok ⟨s2.storage, s2.count, !allow_resize, s2.a⟩

/-- Copy construction / assignment: fresh buffer of the source's storage size,
live prefix deep-copied. -/
def HeapArray.copy (rhs : HeapArray) : HeapArray :=
  let kept := rhs.a.take rhs.count
  ⟨rhs.storage, rhs.count, rhs.fixed, kept ++ List.replicate (rhs.storage - kept.length) 0⟩

/-- Move construction / assignment: the pair (moved-to state, moved-from
state); the source is left empty. -/
def HeapArray.moveFrom (rhs : HeapArray) : HeapArray × HeapArray :=
  (⟨rhs.storage, rhs.count, rhs.fixed, rhs.a⟩, ⟨0, 0, false, []⟩)

/-! Specification predicates. -/

/-- `Subtree i j`: index `j` lies in the subtree rooted at `i` (including `i`
itself) under the implicit binary-tree layout `left i = 2 i + 1`,
`right i = 2 i + 2`. -/
inductive Subtree : Nat → Nat → Prop where
  | refl (i : Nat) : Subtree i i
  | goLeft {i j : Nat} : Subtree (left i) j → Subtree i j
  | goRight {i j : Nat} : Subtree (right i) j → Subtree i j

/-- `Desc i j`: `j` is a proper descendant of node `i`. -/
def Desc (i j : Nat) : Prop := Subtree (left i) j ∨ Subtree (right i) j

/-- `pc i j`: `j` is a direct child of `i`. -/
def pc (i j : Nat) : Prop := j = left i ∨ j = right i

/-- `gpc i j`: `j` is a grandchild of `i`. -/
def gpc (i j : Nat) : Prop := ∃ k, pc i k ∧ pc k j

/-- The ordering obligation of the min-max invariant between an ancestor `i`
and one of its descendants `j`: `a[i] ≤ a[j]` when `i` is on a min level and
`a[j] ≤ a[i]` when `i` is on a max level. -/
def mmRel (a : List Int) (i j : Nat) : Prop :=
  (min_level i = true → getE a i ≤ getE a j) ∧
  (min_level i = false → getE a j ≤ getE a i)

/-- The min-max heap invariant over the live prefix `[0, n)` of `a`: every
node on a min level is ≤ all its descendants, every node on a max level is
≥ all its descendants. -/
def MMInv (a : List Int) (n : Nat) : Prop :=
  ∀ i j, j < n → Desc i j → mmRel a i j

/-- Parent/grandparent-local reformulation of the min-max invariant; it is
decidable, and equivalent to `MMInv` (theorem `MMInv_iff_localInv`). -/
def localInv (a : List Int) (n : Nat) : Prop :=
  ∀ j, j < n → (0 < j → mmRel a (parent j) j) ∧ (2 < j → mmRel a (gparent j) j)

instance (a : List Int) (i j : Nat) : Decidable (mmRel a i j) :=
  inferInstanceAs (Decidable (And _ _))

instance (a : List Int) (n : Nat) : Decidable (localInv a n) :=
  inferInstanceAs (Decidable (∀ j, j < n → And _ _))

/-- A natural number that is a perfect square (0 included). -/
def PerfSquare (n : Nat) : Prop := ∃ k, n = k * k

/-- The global inter-run ordering of the container: for every partition `p`
followed by another one, the maximum of partition `p` is at most the first
(least) element of partition `p + 1`. -/
def GlobalOrdered (s : HeapArray) : Prop :=
  ∀ p mx, p + 1 ≤ s.final_partition → s.max_in_partition p = .ok mx →
    mx ≤ getE s.a (partition_start (p + 1))

/-- Container states reachable by the operations that go through the
rounding-up resize path (everything in the public interface except
`new_with_reserve` and from-range construction with `allow_resize = false`,
which allocate the requested size verbatim). -/
inductive ReachSq : HeapArray → Prop where
  | empty : ReachSq HeapArray.init
  | fromRangeR (xs : List Int) (s : HeapArray) :
      HeapArray.fromRange xs true = .ok s → ReachSq s
  | insertR (s s' : HeapArray) (v : Int) :
      ReachSq s → s.insert v = .ok s' → ReachSq s'
  | removeR (s s' : HeapArray) (v : Int) (b : Bool) :
      ReachSq s → s.remove v = .ok (b, s') → ReachSq s'
  | resizeR (s s' : HeapArray) (n : Nat) :
      ReachSq s → s.resize n true = .ok s' → ReachSq s'
  | growR (s s' : HeapArray) :
      ReachSq s → s.grow = .ok s' → ReachSq s'
  | copyR (s : HeapArray) : ReachSq s → ReachSq s.copy
  | moveTgt (s : HeapArray) : ReachSq s → ReachSq s.moveFrom.1
  | moveSrc (s : HeapArray) : ReachSq s → ReachSq s.moveFrom.2

/-! Theorems.  The concrete container states below are computed by the
embedding itself; each equation is checked by kernel evaluation. -/

/-- C1: the claim states that the global inter-run ordering
`peek_max(partition p) ≤ buf[partition_start(p+1)]` holds in every reachable
state and is preserved by every `insert`.  It is refuted by the two-step
trace `insert(1); insert(2)` from a default-constructed container: the
insert-time partition locator sends 2 into the full final partition 0, and
`ripple_add` then evicts the pre-insert maximum 1 (not the post-insert
maximum 2), leaving buffer `[2, 1]` with `peek_max(partition 0) = 2 > 1 =
buf[partition_start(1)]`. -/
theorem c1_insert_breaks_global_ordering :
    (do
      let s1 ← HeapArray.init.insert 1
      s1.insert 2 : Except CppErr HeapArray) = .ok ⟨4, 2, false, [2, 1, 0, 0]⟩ ∧
    ¬ GlobalOrdered ⟨4, 2, false, [2, 1, 0, 0]⟩ :=
  ⟨by decide, fun h => absurd (h 0 2 (by decide) (by decide)) (by decide)⟩

/-- C2: the claim states the insert/contains round trip always succeeds.  On
the reachable state left by `insert(1); insert(2)` (buffer `[2, 1]`, global
ordering broken), `contains(1)` returns `false` although 1 was inserted and
never removed: the partition locator's binary search finds no partition whose
[min, max] range brackets 1 and falls back to scanning partition 0 only. -/
theorem c2_contains_after_insert_returns_false :
    (do
      let s1 ← HeapArray.init.insert 1
      s1.insert 2 : Except CppErr HeapArray) = .ok ⟨4, 2, false, [2, 1, 0, 0]⟩ ∧
    HeapArray.contains ⟨4, 2, false, [2, 1, 0, 0]⟩ 1 = .ok false := by decide

/-- C3: the claim states that on every reachable state with `count ≥ 1`,
`min()` returns the minimum of the first `count` buffer elements and `max()`
their maximum.  On the reachable state with buffer `[2, 1]` and `count = 2`,
`min()` returns `buf[0] = 2` while the live element at index 1 is `1 < 2`,
and `max()` returns 1 (the peek-max of final partition 1) while the live
element at index 0 is `2 > 1`. -/
theorem c3_min_max_wrong_on_reachable_state :
    (do
      let s1 ← HeapArray.init.insert 1
      s1.insert 2 : Except CppErr HeapArray) = .ok ⟨4, 2, false, [2, 1, 0, 0]⟩ ∧
    (HeapArray.min ⟨4, 2, false, [2, 1, 0, 0]⟩ = 2 ∧
     getE (⟨4, 2, false, [2, 1, 0, 0]⟩ : HeapArray).a 1 = 1 ∧ (1 : Nat) < 2 ∧
     ¬ HeapArray.min ⟨4, 2, false, [2, 1, 0, 0]⟩ ≤ 1) ∧
    (HeapArray.max ⟨4, 2, false, [2, 1, 0, 0]⟩ = .ok 1 ∧
     getE (⟨4, 2, false, [2, 1, 0, 0]⟩ : HeapArray).a 0 = 2 ∧
     ¬ (2 : Int) ≤ 1) := by decide

/-- C5: the claim states `remove_max()` returns the pre-call maximum value.
On the min-max heap `[2, 5, 3]` (n = 3, invariant holds, maximum 5 at index
1), the source assigns `value = m.second` — the *index* 1 found by
`max_child` — and returns 1, not 5.  (The element removed from the heap is
nevertheless the right one.) -/
theorem c5_remove_max_returns_index_not_value :
    mm_heap_remove_max [2, 5, 3] 3 = .ok (1, [2, 3, 3], 2) ∧
    (∀ j, j < 3 → getE [2, 5, 3] j ≤ 5) ∧ getE [2, 5, 3] 1 = 5 ∧
    (1 : Int) ≠ 5 := by decide

/-- C6: the claim states `replace_at_index` / `remove_at_index` report an
out-of-range error for every index `i ≥ n` and leave the heap unchanged.  The
source checks `index > count` instead of `index >= count`, so the boundary
index `i = n` slips through: on a heap with one live element 5 (dead slot
holding 9), `replace_at_index(7, 1)` succeeds, returns the stale value 9 and
writes the dead slot, and `remove_at_index(1)` succeeds, returns stale 9 and
decrements the count. -/
theorem c6_index_equal_to_count_not_rejected :
    mm_heap_replace_at_index 7 1 [5, 9] 1 = .ok (9, [5, 7]) ∧
    mm_heap_remove_at_index 1 [5, 9] 1 = .ok (9, [5, 5], 0) := by decide

/-- C7: the claim states `remove_min()` touches only live indices, and for
n = 1 the final sift-down accesses no index at all.  In the source the
sift-down is called after `--count` with right bound `count - 1`, a `size_t`
expression that wraps to `2^64 - 1` when n = 1.  Consequently the sift reads
(and acts on) buffer slots past the live region: two buffers that agree on
the whole live region `[0, 1)` but differ in the dead slot at index 1 produce
different results — impossible if only live indices were read. -/
theorem c7_remove_min_reads_beyond_live_region :
    ([5, 3] : List Int).take 1 = ([5, -7] : List Int).take 1 ∧
    mm_heap_remove_min [5, 3] 1 = .ok (5, [0, 3], 0) ∧
    mm_heap_remove_min [5, -7] 1 = .ok (5, [-7, 5], 0) := by decide

/-- C8 counterexample: `new_with_reserve(3, allow_resize = true)` allocates
`storage = 3`, which is not a perfect square, refuting the claim that
`storage` is a perfect square or 0 after every operation including every
construction variant. -/
theorem c8_reserve_storage_not_square :
    (HeapArray.reserve 3 true).storage = 3 ∧
    ¬ PerfSquare (HeapArray.reserve 3 true).storage := by
  refine ⟨rfl, ?_⟩
  rintro ⟨k, hk⟩
  have hs : (HeapArray.reserve 3 true).storage = 3 := rfl
  rw [hs] at hk
  rcases Nat.lt_or_ge k 2 with h | h
  · interval_cases k <;> omega
  · have : 4 ≤ k * k := Nat.mul_le_mul h h
    omega

/-- C9: with `new_with_reserve(1, false)` (capacity 1, fixed), `insert(10)`
succeeds and `size()` becomes 1; the subsequent `insert(20)` finds
`count == storage` with `fixed` set and throws the capacity error before any
mutation, so the container state is untouched. -/
theorem c9_fixed_capacity_one_behaviour :
    (HeapArray.reserve 1 false).insert 10 = .ok ⟨1, 1, true, [10]⟩ ∧
    HeapArray.size ⟨1, 1, true, [10]⟩ = 1 ∧
    HeapArray.insert ⟨1, 1, true, [10]⟩ 20 = .error .lengthErr := by decide

/-- C10: the linear scan of `_find` covers the candidate partition's full
range `[partition_start(p), partition_end(p)]` irrespective of the live
count, so a stale value in a dead slot can be "found".  Concretely, the trace
`insert 9; insert 4; insert 6; insert 7; remove 7` reaches the state with
buffer `[4, 6, 9, 7]` and `count = 3`: the live elements are `[4, 6, 9]`, yet
`contains(7)` scans the dead slot at index 3 of final partition 1 and returns
`true` for the removed value 7. -/
theorem c10_contains_true_for_dead_value :
    (do
      let s1 ← HeapArray.init.insert 9
      let s2 ← s1.insert 4
      let s3 ← s2.insert 6
      let s4 ← s3.insert 7
      s4.remove 7 : Except CppErr (Bool × HeapArray)) =
      .ok (true, ⟨4, 3, false, [4, 6, 9, 7]⟩) ∧
    HeapArray.contains ⟨4, 3, false, [4, 6, 9, 7]⟩ 7 = .ok true ∧
    (⟨4, 3, false, [4, 6, 9, 7]⟩ : HeapArray).a.take
      (⟨4, 3, false, [4, 6, 9, 7]⟩ : HeapArray).count = [4, 6, 9] ∧
    ¬ (7 : Int) ∈ ([4, 6, 9] : List Int) := by decide

theorem resize_true_square (s : HeapArray) (n : Nat) (s' : HeapArray)
    (h : s.resize n true = .ok s') : PerfSquare s'.storage := by
  unfold HeapArray.resize at h
  split at h
  · cases h
  · split at h
    · cases h
      exact ⟨natCeilSqrt n, rfl⟩
    · cases h
      exact ⟨0, rfl⟩

theorem grow_square (s : HeapArray) (s' : HeapArray)
    (h : s.grow = .ok s') : PerfSquare s'.storage :=
  resize_true_square s _ s' h

theorem insert_storage_square (s : HeapArray) (v : Int) (s' : HeapArray)
    (hsq : PerfSquare s.storage) (h : s.insert v = .ok s') : PerfSquare s'.storage := by
  unfold HeapArray.insert at h
  simp only [bind, Except.bind] at h
  split at h
  · split at h
    · cases h
    · rcases hg : s.grow with e | s2 <;> rw [hg] at h <;> dsimp only at h
      · cases h
      · have hs2 : PerfSquare s2.storage := grow_square s s2 hg
        rcases hp : s2.find_partition v true with e | p <;> rw [hp] at h <;> dsimp only at h
        · cases h
        · rcases ha : s2.rippleLoop (s2.final_partition + 3) s2.a v p with e | a2 <;>
            rw [ha] at h <;> dsimp only at h
          · cases h
          · cases h; exact hs2
  · simp only [pure, Except.pure] at h
    rcases hp : s.find_partition v true with e | p <;> rw [hp] at h <;> dsimp only at h
    · cases h
    · rcases ha : s.rippleLoop (s.final_partition + 3) s.a v p with e | a2 <;>
        rw [ha] at h <;> dsimp only at h
      · cases h
      · cases h; exact hsq

theorem exbind_ok {α β : Type} (e : Except CppErr α) (f : α → Except CppErr β) (y : β)
    (h : e >>= f = .ok y) : ∃ x, e = .ok x ∧ f x = .ok y := by
  cases e with
  | error err => exact absurd h (by simp [Bind.bind, Except.bind])
  | ok x => exact ⟨x, rfl, by simpa [Bind.bind, Except.bind] using h⟩

theorem remove_storage (s : HeapArray) (v : Int) (b : Bool) (s' : HeapArray)
    (h : s.remove v = .ok (b, s')) : s'.storage = s.storage := by
  unfold HeapArray.remove at h
  obtain ⟨t, ht, h⟩ := exbind_ok _ _ _ h
  split at h
  · dsimp only at h
    split at h
    · obtain ⟨r, hr, h⟩ := exbind_ok _ _ _ h
      cases h; rfl
    · obtain ⟨r1, hr1, h⟩ := exbind_ok _ _ _ h
      obtain ⟨bl, hbl, h⟩ := exbind_ok _ _ _ h
      obtain ⟨r3, hr3, h⟩ := exbind_ok _ _ _ h
      cases h; rfl
  · cases h; rfl

theorem fromRange_square (xs : List Int) (s' : HeapArray)
    (h : HeapArray.fromRange xs true = .ok s') : PerfSquare s'.storage := by
  unfold HeapArray.fromRange at h
  obtain ⟨s0, hs0, h⟩ := exbind_ok _ _ _ h
  cases h
  exact resize_true_square HeapArray.init xs.length s0 hs0

/-- C8 amended: along every operation of the public interface that goes
through the rounding-up resize path (default construction, from-range
construction with resize allowed, insert, remove, resize with round-up, grow,
copy, move), the storage field is a perfect square or 0; only
`new_with_reserve` and from-range construction with `allow_resize = false`
allocate a requested size verbatim. -/
theorem c8_storage_square_on_rounding_path (s : HeapArray) (h : ReachSq s) :
    PerfSquare s.storage := by
  induction h with
  | empty => exact ⟨0, rfl⟩
  | fromRangeR xs s h => exact fromRange_square xs s h
  | insertR s s' v _ hok ih => exact insert_storage_square s v s' ih hok
  | removeR s s' v b _ hok ih => exact (remove_storage s v b s' hok) ▸ ih
  | resizeR s s' n _ hok _ => exact resize_true_square s n s' hok
  | growR s s' _ hok _ => exact grow_square s s' hok
  | copyR s _ ih => exact ih
  | moveTgt s _ ih => exact ih
  | moveSrc s _ _ => exact ⟨0, rfl⟩

/-- Witness for C8's amended theorem: the state reached by one insert into a
default-constructed container has storage 4, a perfect square. -/
theorem c8_storage_square_on_rounding_path_witness :
    PerfSquare (⟨4, 1, false, [1, 0, 0, 0]⟩ : HeapArray).storage :=
  c8_storage_square_on_rounding_path _
    (ReachSq.insertR HeapArray.init _ 1 ReachSq.empty (by decide))

/-! Index arithmetic and level-parity lemmas. -/

theorem left_lt (i : Nat) : i < left i := by unfold left; omega

theorem right_lt (i : Nat) : i < right i := by unfold right; omega

theorem parent_left (i : Nat) : parent (left i) = i := by simp only [parent, left]; omega

theorem parent_right (i : Nat) : parent (right i) = i := by simp only [parent, right]; omega

theorem pc_ge {i j : Nat} (h : pc i j) : left i ≤ j := by
  rcases h with h | h <;> subst h <;> simp only [left, right] <;> omega

theorem pc_lt {i j : Nat} (h : pc i j) : i < j := lt_of_lt_of_le (left_lt i) (pc_ge h)

theorem gpc_ge {i j : Nat} (h : gpc i j) : left (left i) ≤ j := by
  obtain ⟨k, hk, hj⟩ := h
  rcases hk with hk | hk <;> rcases hj with hj | hj <;> subst hj <;> subst hk <;>
    simp only [left, right] <;> omega

theorem parent_of_pc {i j : Nat} (h : pc i j) : parent j = i := by
  rcases h with h | h <;> subst h
  · exact parent_left i
  · exact parent_right i

theorem log2_one : Nat.log2 1 = 0 := by
  unfold Nat.log2
  rw [if_neg (by omega)]

theorem mod_two_flip (x : Nat) : ((x + 1) % 2 == 0) = !(x % 2 == 0) := by
  rcases Nat.mod_two_eq_zero_or_one x with h | h
  · have h1 : (x + 1) % 2 = 1 := by omega
    rw [h, h1]
    decide
  · have h1 : (x + 1) % 2 = 0 := by omega
    rw [h, h1]
    decide

theorem log_2F_eq (fuel : Nat) : ∀ n, n ≤ fuel → log_2F fuel n = Nat.log2 n := by
  induction fuel with
  | zero =>
    intro n hn
    have h0 : n = 0 := Nat.le_zero.mp hn
    subst h0
    unfold log_2F Nat.log2
    simp
  | succ f ih =>
    intro n hn
    unfold log_2F
    split
    · rw [ih (n / 2) (by omega)]
      conv_rhs => unfold Nat.log2
      rw [if_pos (by omega)]
    · conv_rhs => unfold Nat.log2
      rw [if_neg (by omega)]

theorem log_2_eq_log2 (n : Nat) : log_2 n = Nat.log2 n := log_2F_eq n n le_rfl

theorem log2_double {k : Nat} (h : 1 ≤ k) : Nat.log2 (2 * k) = Nat.log2 k + 1 := by
  conv_lhs => unfold Nat.log2
  rw [if_pos (by omega)]
  have h2 : 2 * k / 2 = k := by omega
  rw [h2]

theorem log2_double_add_one {k : Nat} (h : 1 ≤ k) :
    Nat.log2 (2 * k + 1) = Nat.log2 k + 1 := by
  conv_lhs => unfold Nat.log2
  rw [if_pos (by omega)]
  have h2 : (2 * k + 1) / 2 = k := by omega
  rw [h2]

theorem min_level_left (i : Nat) : min_level (left i) = ! min_level i := by
  have hL : min_level (left i) = ((Nat.log2 (i + 1) + 1) % 2 == 0) := by
    unfold min_level left
    rw [if_pos (by omega), log_2_eq_log2]
    have h2 : 2 * i + 1 + 1 = 2 * (i + 1) := by omega
    rw [h2, log2_double (by omega)]
  rw [hL]
  rcases Nat.eq_zero_or_pos i with h0 | h0
  · subst h0
    rw [show min_level 0 = true from rfl, log2_one]
    decide
  · unfold min_level
    rw [if_pos (by omega), log_2_eq_log2]
    exact mod_two_flip _

theorem min_level_right (i : Nat) : min_level (right i) = ! min_level i := by
  have hL : min_level (right i) = ((Nat.log2 (i + 1) + 1) % 2 == 0) := by
    unfold min_level right
    rw [if_pos (by omega), log_2_eq_log2]
    have h2 : 2 * i + 2 + 1 = 2 * (i + 1) + 1 := by omega
    rw [h2, log2_double_add_one (by omega)]
  rw [hL]
  rcases Nat.eq_zero_or_pos i with h0 | h0
  · subst h0
    rw [show min_level 0 = true from rfl, log2_one]
    decide
  · unfold min_level
    rw [if_pos (by omega), log_2_eq_log2]
    exact mod_two_flip _

theorem min_level_pc {i j : Nat} (h : pc i j) : min_level j = ! min_level i := by
  rcases h with h | h <;> subst h
  · exact min_level_left i
  · exact min_level_right i

theorem min_level_gpc {i j : Nat} (h : gpc i j) : min_level j = min_level i := by
  obtain ⟨k, hk, hj⟩ := h
  rw [min_level_pc hj, min_level_pc hk, Bool.not_not]

/-! Subtree / descendant lemmas. -/

theorem subtree_le {i j : Nat} (h : Subtree i j) : i ≤ j := by
  induction h with
  | refl => exact le_rfl
  | goLeft h ih => exact le_trans (le_of_lt (left_lt _)) ih
  | goRight h ih => exact le_trans (le_of_lt (right_lt _)) ih

theorem subtree_trans {i j k : Nat} (h1 : Subtree i j) (h2 : Subtree j k) : Subtree i k := by
  induction h1 with
  | refl => exact h2
  | goLeft h ih => exact Subtree.goLeft (ih h2)
  | goRight h ih => exact Subtree.goRight (ih h2)

theorem subtree_of_pc {i j : Nat} (h : pc i j) : Subtree i j := by
  rcases h with h | h <;> subst h
  · exact Subtree.goLeft (Subtree.refl _)
  · exact Subtree.goRight (Subtree.refl _)

theorem desc_of_pc {i j : Nat} (h : pc i j) : Desc i j := by
  rcases h with h | h <;> subst h
  · exact Or.inl (Subtree.refl _)
  · exact Or.inr (Subtree.refl _)

theorem desc_left_le {i j : Nat} (h : Desc i j) : left i ≤ j := by
  rcases h with h | h
  · exact subtree_le h
  · exact le_trans (by simp only [left, right]; omega) (subtree_le h)

theorem desc_lt {i j : Nat} (h : Desc i j) : i < j :=
  lt_of_lt_of_le (left_lt i) (desc_left_le h)

theorem subtree_of_desc {i j : Nat} (h : Desc i j) : Subtree i j := by
  rcases h with h | h
  · exact Subtree.goLeft h
  · exact Subtree.goRight h

theorem desc_trans {i j k : Nat} (h1 : Desc i j) (h2 : Desc j k) : Desc i k := by
  rcases h1 with h1 | h1
  · exact Or.inl (subtree_trans h1 (subtree_of_desc h2))
  · exact Or.inr (subtree_trans h1 (subtree_of_desc h2))

theorem desc_pc_trans {i j k : Nat} (h1 : Desc i j) (h2 : pc j k) : Desc i k :=
  desc_trans h1 (desc_of_pc h2)

theorem pc_desc_trans {i j k : Nat} (h1 : pc i j) (h2 : Desc j k) : Desc i k :=
  desc_trans (desc_of_pc h1) h2

theorem desc_of_gpc {i j : Nat} (h : gpc i j) : Desc i j := by
  obtain ⟨k, hk, hj⟩ := h
  exact pc_desc_trans hk (desc_of_pc hj)

theorem subtree_eq_or_desc {i j : Nat} (h : Subtree i j) : i = j ∨ Desc i j := by
  induction h with
  | refl => exact Or.inl rfl
  | goLeft h _ => exact Or.inr (Or.inl h)
  | goRight h _ => exact Or.inr (Or.inr h)

theorem subtree_parent {i j : Nat} (h : Subtree i j) (hne : i ≠ j) : Subtree i (parent j) := by
  induction h with
  | refl i0 => exact absurd rfl hne
  | @goLeft i0 j0 h ih =>
    rcases eq_or_ne (left i0) j0 with he | hne2
    · subst he
      rw [parent_left]
      exact Subtree.refl _
    · exact Subtree.goLeft (ih hne2)
  | @goRight i0 j0 h ih =>
    rcases eq_or_ne (right i0) j0 with he | hne2
    · subst he
      rw [parent_right]
      exact Subtree.refl _
    · exact Subtree.goRight (ih hne2)

theorem desc_parent_or {i j : Nat} (h : Desc i j) : pc i j ∨ Desc i (parent j) := by
  rcases h with h | h
  · rcases eq_or_ne (left i) j with he | hne
    · exact Or.inl (Or.inl he.symm)
    · exact Or.inr (Or.inl (subtree_parent h hne))
  · rcases eq_or_ne (right i) j with he | hne
    · exact Or.inl (Or.inr he.symm)
    · exact Or.inr (Or.inr (subtree_parent h hne))

theorem anc_of_pc {p i j : Nat} (hj : pc i j) (h : Desc p j) : p = i ∨ Desc p i := by
  rcases desc_parent_or h with hp | hp
  · left
    have h1 := parent_of_pc hp
    have h2 := parent_of_pc hj
    omega
  · right
    rwa [parent_of_pc hj] at hp

theorem desc_cases_down {i j : Nat} (h : Desc i j) :
    pc i j ∨ gpc i j ∨ ∃ g, gpc i g ∧ Desc g j := by
  have step : ∀ c, Subtree c j → pc i c → pc i j ∨ gpc i j ∨ ∃ g, gpc i g ∧ Desc g j := by
    intro c hc hpc
    rcases subtree_eq_or_desc hc with he | hd
    · subst he
      exact Or.inl hpc
    · rcases hd with hd | hd
      · rcases subtree_eq_or_desc hd with he2 | hd2
        · exact Or.inr (Or.inl ⟨c, hpc, Or.inl he2.symm⟩)
        · exact Or.inr (Or.inr ⟨left c, ⟨c, hpc, Or.inl rfl⟩, hd2⟩)
      · rcases subtree_eq_or_desc hd with he2 | hd2
        · exact Or.inr (Or.inl ⟨c, hpc, Or.inr he2.symm⟩)
        · exact Or.inr (Or.inr ⟨right c, ⟨c, hpc, Or.inr rfl⟩, hd2⟩)
  rcases h with h | h
  · exact step (left i) h (Or.inl rfl)
  · exact step (right i) h (Or.inr rfl)

theorem subtree_root_child : ∀ j, 1 ≤ j → Subtree 1 j ∨ Subtree 2 j := by
  intro j
  induction j using Nat.strong_induction_on with
  | _ j ih =>
    intro hj
    rcases Nat.lt_or_ge j 3 with h3 | h3
    · interval_cases j
      · exact Or.inl (Subtree.refl 1)
      · exact Or.inr (Subtree.refl 2)
    · have hp1 : 1 ≤ parent j := by simp only [parent]; omega
      have hplt : parent j < j := by simp only [parent]; omega
      have hpc : pc (parent j) j := by
        simp only [pc, left, right, parent]
        omega
      rcases ih (parent j) hplt hp1 with hs | hs
      · exact Or.inl (subtree_trans hs (subtree_of_pc hpc))
      · exact Or.inr (subtree_trans hs (subtree_of_pc hpc))

theorem desc_root {j : Nat} (h : 1 ≤ j) : Desc 0 j := by
  have h2 := subtree_root_child j h
  have hl : left 0 = 1 := rfl
  have hr : right 0 = 2 := rfl
  rcases h2 with hs | hs
  · exact Or.inl (hl ▸ hs)
  · exact Or.inr (hr ▸ hs)

/-! Buffer read/write lemmas. -/

theorem getE_eq (a : List Int) (i : Nat) : getE a i = (a[i]?).getD 0 := by
  simp [getE, List.getD_eq_getElem?_getD]

theorem getE_set_self {a : List Int} {i : Nat} (h : i < a.length) (v : Int) :
    getE (a.set i v) i = v := by
  rw [getE_eq, List.getElem?_set_self h]
  rfl

theorem getE_set_other {a : List Int} (i : Nat) {j : Nat} (h : i ≠ j) (v : Int) :
    getE (a.set i v) j = getE a j := by
  rw [getE_eq, List.getElem?_set_ne h, getE_eq]

theorem swapL_length (a : List Int) (i j : Nat) : (swapL a i j).length = a.length := by
  simp [swapL]

theorem getE_swap_right {a : List Int} {i j : Nat} (hj : j < a.length) :
    getE (swapL a i j) j = getE a i := by
  unfold swapL
  rw [getE_set_self (by simpa using hj)]

theorem getE_swap_left {a : List Int} {i j : Nat} (hi : i < a.length) (hne : i ≠ j) :
    getE (swapL a i j) i = getE a j := by
  unfold swapL
  rw [getE_set_other j (Ne.symm hne), getE_set_self hi]

theorem getE_swap_other {a : List Int} {i j k : Nat} (h1 : i ≠ k) (h2 : j ≠ k) :
    getE (swapL a i j) k = getE a k := by
  unfold swapL
  rw [getE_set_other j h2, getE_set_other i h1]

/-! Specifications of the child / grandchild argmax selectors. -/

theorem child_iff (i c : Nat) : child i c = true ↔ pc i c := by
  simp [child, pc]

theorem not_pc_of_gpc {i c : Nat} (h : gpc i c) : ¬ pc i c := by
  intro hp
  have h1 := gpc_ge h
  have h2 : c = left i ∨ c = right i := hp
  simp only [left, right] at h1 h2
  omega

theorem max_child_fst (a : List Int) (i r : Nat) :
    (max_child a i r).1 = true ↔ left i ≤ r := by
  unfold max_child
  split <;> simp [*]

theorem max_gchild_fst (a : List Int) (i r : Nat) :
    (max_gchild a i r).1 = true ↔ left (left i) ≤ r := by
  unfold max_gchild
  dsimp only
  split <;> simp [*]

theorem max_child_spec (a : List Int) (i r : Nat) (h : left i ≤ r) :
    pc i (max_child a i r).2 ∧ (max_child a i r).2 ≤ r ∧
      ∀ j, pc i j → j ≤ r → getE a j ≤ getE a (max_child a i r).2 := by
  unfold max_child
  rw [if_pos h]
  dsimp only
  by_cases hc : right i ≤ r ∧ getE a (left i) < getE a (right i)
  · rw [if_pos hc]
    refine ⟨Or.inr rfl, hc.1, ?_⟩
    intro j hj hjr
    rcases hj with hj | hj <;> subst hj
    · exact le_of_lt hc.2
    · exact le_rfl
  · rw [if_neg hc]
    refine ⟨Or.inl rfl, h, ?_⟩
    intro j hj hjr
    rcases hj with hj | hj <;> subst hj
    · exact le_rfl
    · push_neg at hc
      exact hc hjr

theorem pick_step (a : List Int) (r m c : Nat) (S : Nat → Prop)
    (hm : S m) (hmr : m ≤ r) (hmax : ∀ j, S j → j ≤ r → getE a j ≤ getE a m) :
    (S (if c ≤ r ∧ getE a m < getE a c then c else m) ∨
      (if c ≤ r ∧ getE a m < getE a c then c else m) = c) ∧
    (if c ≤ r ∧ getE a m < getE a c then c else m) ≤ r ∧
      ∀ j, S j ∨ j = c → j ≤ r →
        getE a j ≤ getE a (if c ≤ r ∧ getE a m < getE a c then c else m) := by
  by_cases hc : c ≤ r ∧ getE a m < getE a c
  · rw [if_pos hc]
    refine ⟨Or.inr rfl, hc.1, ?_⟩
    intro j hj hjr
    rcases hj with hj | hj
    · exact le_trans (hmax j hj hjr) (le_of_lt hc.2)
    · subst hj
      exact le_rfl
  · rw [if_neg hc]
    push_neg at hc
    refine ⟨Or.inl hm, hmr, ?_⟩
    intro j hj hjr
    rcases hj with hj | hj
    · exact hmax j hj hjr
    · subst hj
      exact hc hjr

theorem max_gchild_spec (a : List Int) (i r : Nat) (h : left (left i) ≤ r) :
    gpc i (max_gchild a i r).2 ∧ (max_gchild a i r).2 ≤ r ∧
      ∀ j, gpc i j → j ≤ r → getE a j ≤ getE a (max_gchild a i r).2 := by
  unfold max_gchild
  rw [if_pos h]
  dsimp only
  have gll : gpc i (left (left i)) := ⟨left i, Or.inl rfl, Or.inl rfl⟩
  have grl : gpc i (right (left i)) := ⟨left i, Or.inl rfl, Or.inr rfl⟩
  have glr : gpc i (left (right i)) := ⟨right i, Or.inr rfl, Or.inl rfl⟩
  have grr : gpc i (right (right i)) := ⟨right i, Or.inr rfl, Or.inr rfl⟩
  have s1 := pick_step a r (left (left i)) (right (left i)) (fun j => j = left (left i))
    rfl h (by intro j hj hjr; subst hj; exact le_rfl)
  obtain ⟨s1m, s1r, s1max⟩ := s1
  have s2 := pick_step a r _ (left (right i)) _ s1m s1r s1max
  obtain ⟨s2m, s2r, s2max⟩ := s2
  have s3 := pick_step a r _ (right (right i)) _ s2m s2r s2max
  obtain ⟨s3m, s3r, s3max⟩ := s3
  refine ⟨?_, s3r, ?_⟩
  · rcases s3m with ((s3m | s3m) | s3m) | s3m
    · rw [s3m]
      exact gll
    · rw [s3m]
      exact grl
    · rw [s3m]
      exact glr
    · rw [s3m]
      exact grr
  · intro j hj hjr
    obtain ⟨k, hk, hjk⟩ := hj
    refine s3max j ?_ hjr
    rcases hk with hk | hk <;> rcases hjk with hjk | hjk <;> subst hjk <;> subst hk
    · exact Or.inl (Or.inl (Or.inl rfl))
    · exact Or.inl (Or.inl (Or.inr rfl))
    · exact Or.inl (Or.inr rfl)
    · exact Or.inr rfl

theorem max_cog_spec (a : List Int) (i r : Nat) (h : left i ≤ r) :
    (pc i (max_child_or_gchild a i r).2 ∨ gpc i (max_child_or_gchild a i r).2) ∧
    (max_child_or_gchild a i r).2 ≤ r ∧
      ∀ j, pc i j ∨ gpc i j → j ≤ r → getE a j ≤ getE a (max_child_or_gchild a i r).2 := by
  obtain ⟨hcp, hcr, hcmax⟩ := max_child_spec a i r h
  unfold max_child_or_gchild
  rw [if_pos ((max_child_fst a i r).mpr h)]
  dsimp only
  by_cases hg : (max_gchild a i r).1 = true ∧
      getE a (max_child a i r).2 < getE a (max_gchild a i r).2
  · rw [if_pos hg]
    obtain ⟨hgp, hgr, hgmax⟩ := max_gchild_spec a i r ((max_gchild_fst a i r).mp hg.1)
    refine ⟨Or.inr hgp, hgr, ?_⟩
    intro j hj hjr
    rcases hj with hj | hj
    · exact le_trans (hcmax j hj hjr) (le_of_lt hg.2)
    · exact hgmax j hj hjr
  · rw [if_neg hg]
    refine ⟨Or.inl hcp, hcr, ?_⟩
    intro j hj hjr
    rcases hj with hj | hj
    · exact hcmax j hj hjr
    · have hguard : left (left i) ≤ r := le_trans (gpc_ge hj) hjr
      have hg1 : (max_gchild a i r).1 = true := (max_gchild_fst a i r).mpr hguard
      push_neg at hg
      obtain ⟨hgp, hgr, hgmax⟩ := max_gchild_spec a i r hguard
      exact le_trans (hgmax j hj hjr) (hg hg1)

theorem cog_child_cases (a : List Int) (i r : Nat) (h : left i ≤ r) :
    (child i (max_child_or_gchild a i r).2 = true ∧ pc i (max_child_or_gchild a i r).2) ∨
    (child i (max_child_or_gchild a i r).2 = false ∧ gpc i (max_child_or_gchild a i r).2) := by
  rcases (max_cog_spec a i r h).1 with hp | hp
  · exact Or.inl ⟨(child_iff _ _).mpr hp, hp⟩
  · refine Or.inr ⟨?_, hp⟩
    rcases hb : child i (max_child_or_gchild a i r).2 with _ | _
    · rfl
    · exact absurd ((child_iff _ _).mp hb) (not_pc_of_gpc hp)

/-! Restoration of the min-max invariant by `mmheap_sift_down_max`. -/

theorem mmRel_of_max {a : List Int} {p j : Nat} (h : min_level p = false)
    (hle : getE a j ≤ getE a p) : mmRel a p j :=
  ⟨fun hc => absurd (h ▸ hc) (by simp), fun _ => hle⟩

theorem mmRel_of_min {a : List Int} {p j : Nat} (h : min_level p = true)
    (hle : getE a p ≤ getE a j) : mmRel a p j :=
  ⟨fun _ => hle, fun hc => absurd (h ▸ hc) (by simp)⟩

theorem mmRel_congr {a b : List Int} {p j : Nat} (hp : getE b p = getE a p)
    (hj : getE b j = getE a j) (h : mmRel a p j) : mmRel b p j :=
  ⟨fun hc => by rw [hp, hj]; exact h.1 hc, fun hc => by rw [hp, hj]; exact h.2 hc⟩

theorem mmRel_transport {a b : List Int} {p j p2 j2 : Nat}
    (hlev : min_level p = min_level p2)
    (hp : getE b p = getE a p2) (hj : getE b j = getE a j2)
    (h : mmRel a p2 j2) : mmRel b p j :=
  ⟨fun hc => by rw [hp, hj]; exact h.1 (hlev ▸ hc),
   fun hc => by rw [hp, hj]; exact h.2 (hlev ▸ hc)⟩

/-- Under the invariant-except-at-`i0` hypothesis, every live descendant of
`i0` is bounded by the value at the argmax child-or-grandchild. -/
theorem desc_le_cog (a : List Int) (i0 r : Nat) (hg : left i0 ≤ r)
    (hml : min_level i0 = false)
    (hInv : ∀ p j, j ≤ r → Desc p j → p ≠ i0 → mmRel a p j) :
    ∀ j, j ≤ r → Desc i0 j → getE a j ≤ getE a (max_child_or_gchild a i0 r).2 := by
  intro j hjr hd
  obtain ⟨-, -, hcmax⟩ := max_cog_spec a i0 r hg
  rcases desc_cases_down hd with hc | hc | ⟨g, hgp, hgd⟩
  · exact hcmax j (Or.inl hc) hjr
  · exact hcmax j (Or.inr hc) hjr
  · have hgml : min_level g = false := by rw [min_level_gpc hgp, hml]
    have hglt : g < j := desc_lt hgd
    have hgne : g ≠ i0 := by
      have := gpc_ge hgp
      have := left_lt (left i0)
      have := left_lt i0
      omega
    have h1 : getE a j ≤ getE a g := (hInv g j hjr hgd hgne).2 hgml
    have h2 : getE a g ≤ getE a (max_child_or_gchild a i0 r).2 :=
      hcmax g (Or.inr hgp) (by omega)
    exact le_trans h1 h2

/-- If the node at `i0` already dominates its live descendants, the invariant
holds outright. -/
theorem no_sift_inv (a : List Int) (i0 r : Nat)
    (hml : min_level i0 = false)
    (hInv : ∀ p j, j ≤ r → Desc p j → p ≠ i0 → mmRel a p j)
    (hbound : ∀ j, j ≤ r → Desc i0 j → getE a j ≤ getE a i0) :
    ∀ p j, j ≤ r → Desc p j → mmRel a p j := by
  intro p j hjr hd
  by_cases hp : p = i0
  · subst hp
    exact mmRel_of_max hml (hbound j hjr hd)
  · exact hInv p j hjr hd hp

/-- Swapping `i0` with a dominating direct child `m` restores the invariant
outright (the "min was a child" terminating case of the sift). -/
theorem sift_child_swap_inv (a : List Int) (i0 r m : Nat)
    (hlen : r < a.length) (hml : min_level i0 = false)
    (hpc : pc i0 m) (hmr : m ≤ r)
    (hbound : ∀ j, j ≤ r → Desc i0 j → getE a j ≤ getE a m)
    (hlt : getE a i0 < getE a m)
    (hInv : ∀ p j, j ≤ r → Desc p j → p ≠ i0 → mmRel a p j)
    (hUp : ∀ p, Desc p i0 → mmRel a p i0) :
    ∀ p j, j ≤ r → Desc p j → mmRel (swapL a m i0) p j := by
  intro p j hjr hd
  have hi0m : i0 < m := pc_lt hpc
  have hmlen : m < a.length := by omega
  have hi0len : i0 < a.length := by omega
  have hbm : getE (swapL a m i0) m = getE a i0 := getE_swap_left hmlen (by omega)
  have hbi0 : getE (swapL a m i0) i0 = getE a m := getE_swap_right hi0len
  have hbo : ∀ k, k ≠ m → k ≠ i0 → getE (swapL a m i0) k = getE a k := by
    intro k h1 h2
    exact getE_swap_other (Ne.symm h1) (Ne.symm h2)
  have hmlm : min_level m = true := by simp [min_level_pc hpc, hml]
  have hpj : p < j := desc_lt hd
  by_cases hp0 : p = i0
  · subst hp0
    by_cases hjm : j = m
    · refine mmRel_of_max hml ?_
      rw [hjm, hbm, hbi0]
      exact le_of_lt hlt
    · refine mmRel_of_max hml ?_
      rw [hbi0, hbo j hjm (by omega)]
      exact hbound j hjr hd
  · by_cases hpm : p = m
    · have hji0 : j ≠ i0 := by omega
      have hjm : j ≠ m := by omega
      have hdm : Desc m j := by rw [hpm] at hd; exact hd
      have h1 : getE a m ≤ getE a j := (hInv m j hjr hdm (by omega)).1 hmlm
      refine ⟨fun hc => ?_, fun hc => ?_⟩
      · rw [hpm, hbm, hbo j hjm hji0]
        omega
      · rw [hpm] at hc
        rw [hmlm] at hc
        cases hc
    · have hbp : getE (swapL a m i0) p = getE a p := hbo p hpm hp0
      by_cases hji0 : j = i0
      · have hdm : Desc p m := by
          rw [hji0] at hd
          exact desc_pc_trans hd hpc
        have h0 := hInv p m hmr hdm hp0
        rw [hji0]
        exact mmRel_transport rfl hbp hbi0 h0
      · by_cases hjm : j = m
        · rw [hjm] at hd
          rcases anc_of_pc hpc hd with he | hdi
          · exact absurd he hp0
          · rw [hjm]
            exact mmRel_transport rfl hbp hbm (hUp p hdi)
        · exact mmRel_congr hbp (hbo j hjm hji0) (hInv p j hjr hd hp0)

/-- After the grandchild swap step of `mmheap_sift_down_max` (swap `i0` with a
dominating grandchild `m`, then possibly repair the intermediate parent `k`),
the invariant holds everywhere except possibly between `m` and its
descendants, and all ancestors of `m` relate correctly to it — the
preconditions for recursing at `m`. -/
theorem sift_gchild_swap_pre (a : List Int) (i0 r m k : Nat)
    (hlen : r < a.length) (hml : min_level i0 = false)
    (hk : pc i0 k) (hm : pc k m) (hmr : m ≤ r)
    (hbound : ∀ j, j ≤ r → Desc i0 j → getE a j ≤ getE a m)
    (hlt : getE a i0 < getE a m)
    (hInv : ∀ p j, j ≤ r → Desc p j → p ≠ i0 → mmRel a p j)
    (hUp : ∀ p, Desc p i0 → mmRel a p i0) :
    (∀ p j, j ≤ r → Desc p j → p ≠ m →
        mmRel (if getE (swapL a m i0) m < getE (swapL a m i0) k
               then swapL (swapL a m i0) m k else swapL a m i0) p j) ∧
    (∀ p, Desc p m →
        mmRel (if getE (swapL a m i0) m < getE (swapL a m i0) k
               then swapL (swapL a m i0) m k else swapL a m i0) p m) := by
  have hik : i0 < k := pc_lt hk
  have hkm : k < m := pc_lt hm
  have hmlen : m < a.length := by omega
  have hklen : k < a.length := by omega
  have hilen : i0 < a.length := by omega
  have hkr : k ≤ r := by omega
  have hmlk : min_level k = true := by simp [min_level_pc hk, hml]
  have hmlmm : min_level m = false := by
    rw [min_level_gpc ⟨k, hk, hm⟩, hml]
  have hgpc : gpc i0 m := ⟨k, hk, hm⟩
  have hdim : Desc i0 m := desc_of_gpc hgpc
  have hkmle : getE a k ≤ getE a m :=
    (hInv k m hmr (desc_of_pc hm) (by omega)).1 hmlk
  have h1m : getE (swapL a m i0) m = getE a i0 := getE_swap_left hmlen (by omega)
  have h1i : getE (swapL a m i0) i0 = getE a m := getE_swap_right hilen
  have h1o : ∀ x, x ≠ m → x ≠ i0 → getE (swapL a m i0) x = getE a x := by
    intro x hx1 hx2
    exact getE_swap_other (Ne.symm hx1) (Ne.symm hx2)
  have h1k : getE (swapL a m i0) k = getE a k := h1o k (by omega) (by omega)
  have h1len : (swapL a m i0).length = a.length := swapL_length a m i0
  by_cases hsw : getE (swapL a m i0) m < getE (swapL a m i0) k
  · -- the intermediate parent k is repaired: i0 ↦ a[m], k ↦ a[i0], m ↦ a[k]
    rw [if_pos hsw]
    rw [h1m, h1k] at hsw
    have h2m : getE (swapL (swapL a m i0) m k) m = getE a k := by
      rw [getE_swap_left (by omega) (by omega), h1k]
    have h2k : getE (swapL (swapL a m i0) m k) k = getE a i0 := by
      rw [getE_swap_right (by omega), h1m]
    have h2i : getE (swapL (swapL a m i0) m k) i0 = getE a m := by
      rw [getE_swap_other (by omega) (by omega), h1i]
    have h2o : ∀ x, x ≠ m → x ≠ k → x ≠ i0 →
        getE (swapL (swapL a m i0) m k) x = getE a x := by
      intro x hx1 hx2 hx3
      rw [getE_swap_other (Ne.symm hx1) (Ne.symm hx2), h1o x hx1 hx3]
    constructor
    · intro p j hjr hd hpm
      have hpj : p < j := desc_lt hd
      by_cases hp0 : p = i0
      · subst hp0
        by_cases hjm : j = m
        · refine mmRel_of_max hml ?_
          rw [hjm, h2m, h2i]
          exact hkmle
        · by_cases hjk : j = k
          · refine mmRel_of_max hml ?_
            rw [hjk, h2k, h2i]
            omega
          · refine mmRel_of_max hml ?_
            rw [h2i, h2o j hjm hjk (by omega)]
            exact hbound j hjr hd
      · by_cases hpk : p = k
        · have hdkj : Desc k j := by rw [hpk] at hd; exact hd
          have hj0 : j ≠ i0 := by omega
          have hjk : j ≠ k := by omega
          by_cases hjm : j = m
          · refine ⟨fun hc => ?_, fun hc => ?_⟩
            · rw [hpk, hjm, h2k, h2m]
              omega
            · rw [hpk, hmlk] at hc
              cases hc
          · have h3 : getE a k ≤ getE a j := (hInv k j hjr hdkj (by omega)).1 hmlk
            refine ⟨fun hc => ?_, fun hc => ?_⟩
            · rw [hpk, h2k, h2o j hjm hjk hj0]
              omega
            · rw [hpk, hmlk] at hc
              cases hc
        · have hp2 : getE (swapL (swapL a m i0) m k) p = getE a p :=
            h2o p hpm hpk hp0
          by_cases hj0 : j = i0
          · have hdpm : Desc p m := by
              rw [hj0] at hd
              exact desc_trans hd hdim
            rw [hj0]
            exact mmRel_transport rfl hp2 h2i (hInv p m hmr hdpm hp0)
          · by_cases hjk : j = k
            · have hdpk : Desc p k := by rw [hjk] at hd; exact hd
              rcases anc_of_pc hk hdpk with he | hdpi
              · exact absurd he hp0
              · rw [hjk]
                exact mmRel_transport rfl hp2 h2k (hUp p hdpi)
            · by_cases hjm : j = m
              · have hdpm : Desc p m := by rw [hjm] at hd; exact hd
                rcases anc_of_pc hm hdpm with he | hdpk
                · exact absurd he hpk
                · rw [hjm]
                  exact mmRel_transport rfl hp2 h2m (hInv p k hkr hdpk hp0)
              · exact mmRel_congr hp2 (h2o j hjm hjk hj0) (hInv p j hjr hd hp0)
    · intro p hdpm
      by_cases hpk : p = k
      · refine ⟨fun hc => ?_, fun hc => ?_⟩
        · rw [hpk, h2k, h2m]
          omega
        · rw [hpk, hmlk] at hc
          cases hc
      · by_cases hp0 : p = i0
        · refine mmRel_of_max ?_ ?_
          · rw [hp0]
            exact hml
          · rw [hp0, h2m, h2i]
            exact hkmle
        · rcases anc_of_pc hm hdpm with he | hdpk
          · exact absurd he hpk
          · have hp2 : getE (swapL (swapL a m i0) m k) p = getE a p :=
              h2o p (by have := desc_lt hdpm; omega) hpk hp0
            exact mmRel_transport rfl hp2 h2m (hInv p k hkr hdpk hp0)
  · -- no repair needed: i0 ↦ a[m], m ↦ a[i0]
    rw [if_neg hsw]
    rw [h1m, h1k] at hsw
    push_neg at hsw
    constructor
    · intro p j hjr hd hpm
      have hpj : p < j := desc_lt hd
      by_cases hp0 : p = i0
      · subst hp0
        by_cases hjm : j = m
        · refine mmRel_of_max hml ?_
          rw [hjm, h1m, h1i]
          omega
        · refine mmRel_of_max hml ?_
          rw [h1i, h1o j hjm (by omega)]
          exact hbound j hjr hd
      · by_cases hpk : p = k
        · have hdkj : Desc k j := by rw [hpk] at hd; exact hd
          have hj0 : j ≠ i0 := by omega
          by_cases hjm : j = m
          · refine ⟨fun hc => ?_, fun hc => ?_⟩
            · rw [hpk, hjm, h1m, h1k]
              omega
            · rw [hpk, hmlk] at hc
              cases hc
          · have h3 : getE a k ≤ getE a j := (hInv k j hjr hdkj (by omega)).1 hmlk
            refine ⟨fun hc => ?_, fun hc => ?_⟩
            · rw [hpk, h1k, h1o j hjm hj0]
              omega
            · rw [hpk, hmlk] at hc
              cases hc
        · have hp2 : getE (swapL a m i0) p = getE a p := h1o p hpm hp0
          by_cases hj0 : j = i0
          · have hdpm : Desc p m := by
              rw [hj0] at hd
              exact desc_trans hd hdim
            rw [hj0]
            exact mmRel_transport rfl hp2 h1i (hInv p m hmr hdpm hp0)
          · by_cases hjm : j = m
            · have hdpm : Desc p m := by rw [hjm] at hd; exact hd
              rcases anc_of_pc hm hdpm with he | hdpk
              · exact absurd he hpk
              · rcases anc_of_pc hk hdpk with he2 | hdpi
                · exact absurd he2 hp0
                · rw [hjm]
                  exact mmRel_transport rfl hp2 h1m (hUp p hdpi)
            · exact mmRel_congr hp2 (h1o j hjm hj0) (hInv p j hjr hd hp0)
    · intro p hdpm
      by_cases hpk : p = k
      · refine ⟨fun hc => ?_, fun hc => ?_⟩
        · rw [hpk, h1k, h1m]
          omega
        · rw [hpk, hmlk] at hc
          cases hc
      · by_cases hp0 : p = i0
        · refine mmRel_of_max ?_ ?_
          · rw [hp0]
            exact hml
          · rw [hp0, h1m, h1i]
            omega
        · rcases anc_of_pc hm hdpm with he | hdpk
          · exact absurd he hpk
          · rcases anc_of_pc hk hdpk with he2 | hdpi
            · exact absurd he2 hp0
            · have hp2 : getE (swapL a m i0) p = getE a p :=
                h1o p (by have := desc_lt hdpm; omega) hp0
              exact mmRel_transport rfl hp2 h1m (hUp p hdpi)

/-- `mmheap_sift_down_max` restores the full min-max invariant on `[0, r]`
when started at a max-level node `i0` that is the only possible violation
(all other ancestor/descendant pairs in range satisfy the invariant, and all
ancestors of `i0` relate correctly to it). -/
theorem sift_down_maxF_restore :
    ∀ (fuel : Nat) (a : List Int) (i0 r : Nat),
      r < a.length → min_level i0 = false → r + 1 ≤ fuel + i0 →
      (∀ p j, j ≤ r → Desc p j → p ≠ i0 → mmRel a p j) →
      (∀ p, Desc p i0 → mmRel a p i0) →
      ∀ p j, j ≤ r → Desc p j → mmRel (mmheap_sift_down_maxF fuel a i0 r) p j := by
  intro fuel
  induction fuel with
  | zero =>
    intro a i0 r hlen hml hfuel hInv hUp
    have heq : mmheap_sift_down_maxF 0 a i0 r = a := rfl
    rw [heq]
    refine no_sift_inv a i0 r hml hInv ?_
    intro j hjr hd
    have h2 := desc_left_le hd
    simp only [left] at h2
    omega
  | succ f ih =>
    intro a i0 r hlen hml hfuel hInv hUp
    unfold mmheap_sift_down_maxF
    dsimp only
    by_cases hg : left i0 ≤ r
    · rw [if_pos hg]
      obtain ⟨hcases, hcr, hcmax⟩ := max_cog_spec a i0 r hg
      have hbound := desc_le_cog a i0 r hg hml hInv
      rcases cog_child_cases a i0 r hg with ⟨hct, hpcm⟩ | ⟨hcf, hgpcm⟩
      · rw [if_pos hct]
        by_cases hlt : getE a i0 < getE a (max_child_or_gchild a i0 r).2
        · rw [if_pos hlt]
          exact sift_child_swap_inv a i0 r _ hlen hml hpcm hcr hbound hlt hInv hUp
        · rw [if_neg hlt]
          push_neg at hlt
          exact no_sift_inv a i0 r hml hInv
            (fun j hjr hd => le_trans (hbound j hjr hd) hlt)
      · rw [if_neg (by simp [hcf])]
        by_cases hlt : getE a i0 < getE a (max_child_or_gchild a i0 r).2
        · rw [if_pos hlt]
          obtain ⟨k, hkpc, hmpc⟩ := hgpcm
          rw [parent_of_pc hmpc]
          obtain ⟨hInv2, hUp2⟩ :=
            sift_gchild_swap_pre a i0 r _ k hlen hml hkpc hmpc hcr hbound hlt hInv hUp
          have hmlm : min_level (max_child_or_gchild a i0 r).2 = false := by
            rw [min_level_gpc ⟨k, hkpc, hmpc⟩, hml]
          have hmgt : i0 < (max_child_or_gchild a i0 r).2 :=
            desc_lt (desc_of_gpc ⟨k, hkpc, hmpc⟩)
          have hlen2 : r <
              (if getE (swapL a (max_child_or_gchild a i0 r).2 i0)
                    (max_child_or_gchild a i0 r).2 <
                  getE (swapL a (max_child_or_gchild a i0 r).2 i0) k
               then swapL (swapL a (max_child_or_gchild a i0 r).2 i0)
                      (max_child_or_gchild a i0 r).2 k
               else swapL a (max_child_or_gchild a i0 r).2 i0).length := by
            split
            · rw [swapL_length, swapL_length]
              exact hlen
            · rw [swapL_length]
              exact hlen
          exact ih _ _ r hlen2 hmlm (by omega) hInv2 hUp2
        · rw [if_neg hlt]
          push_neg at hlt
          exact no_sift_inv a i0 r hml hInv
            (fun j hjr hd => le_trans (hbound j hjr hd) hlt)
    · rw [if_neg hg]
      refine no_sift_inv a i0 r hml hInv ?_
      intro j hjr hd
      exact absurd (le_trans (desc_left_le hd) hjr) hg

/-- In a min-max heap with at least two live entries, every live value is
bounded by the value at the argmax of the root's children. -/
theorem heap_max_at_top (a : List Int) (n : Nat) (h2 : 2 ≤ n) (hInv : MMInv a n) :
    ∀ j, j < n → getE a j ≤ getE a (max_child a 0 (n - 1)).2 := by
  have hg : left 0 ≤ n - 1 := by simp only [left]; omega
  obtain ⟨hcp, hcr, hcmax⟩ := max_child_spec a 0 (n - 1) hg
  intro j hj
  rcases Nat.eq_zero_or_pos j with h0 | h0
  · subst h0
    have hd : Desc 0 (max_child a 0 (n - 1)).2 := desc_of_pc hcp
    exact (hInv 0 _ (by omega) hd).1 rfl
  · rcases subtree_root_child j h0 with hs | hs
    · rcases subtree_eq_or_desc hs with he | hd
      · rw [← he]
        exact hcmax 1 (Or.inl rfl) (by omega)
      · have hj5 : left 1 ≤ j := desc_left_le hd
        simp only [left] at hj5
        have hml1 : min_level 1 = false := by decide
        have h3 : getE a j ≤ getE a 1 := (hInv 1 j hj hd).2 hml1
        have h4 : getE a 1 ≤ getE a (max_child a 0 (n - 1)).2 :=
          hcmax 1 (Or.inl rfl) (by omega)
        omega
    · rcases subtree_eq_or_desc hs with he | hd
      · rw [← he]
        exact hcmax 2 (Or.inr rfl) (by omega)
      · have hj5 : left 2 ≤ j := desc_left_le hd
        simp only [left] at hj5
        have hml2 : min_level 2 = false := by decide
        have h3 : getE a j ≤ getE a 2 := (hInv 2 j hj hd).2 hml2
        have h4 : getE a 2 ≤ getE a (max_child a 0 (n - 1)).2 :=
          hcmax 2 (Or.inr rfl) (by omega)
        omega

theorem MMInv_le_one (a : List Int) (n : Nat) (h : n ≤ 1) : MMInv a n := by
  intro i j hj hd
  have := desc_lt hd
  omega

/-- The full branch of `ripple_add` (replace the argmax child of the root by
the new value, re-establish the root minimum if needed, sift down) restores
the min-max invariant, for heaps with at least two entries. -/
theorem ripple_full_inv (a : List Int) (cap : Nat) (v : Int) (m : Nat)
    (hm : m = (max_child a 0 (cap - 1)).2)
    (hcap : 2 ≤ cap) (hlen : cap ≤ a.length) (hInv : MMInv a cap) :
    MMInv (mmheap_sift_down
      (if v < getE (a.set m v) 0 then swapL (a.set m v) 0 m else a.set m v)
      m (cap - 1)) cap := by
  have hg : left 0 ≤ cap - 1 := by simp only [left]; omega
  obtain ⟨hcp0, hcr0, hcmax0⟩ := max_child_spec a 0 (cap - 1) hg
  have hpcm : pc 0 m := by rw [hm]; exact hcp0
  have hmr : m ≤ cap - 1 := by rw [hm]; exact hcr0
  have hm0 : 0 < m := pc_lt hpcm
  have hmlen : m < a.length := by omega
  have hmlm : min_level m = false := by
    simp [min_level_pc hpcm, show min_level 0 = true from rfl]
  have hs0 : getE (a.set m v) 0 = getE a 0 := getE_set_other m (by omega) v
  have hsm : getE (a.set m v) m = v := getE_set_self hmlen v
  have hso : ∀ x, x ≠ m → getE (a.set m v) x = getE a x := by
    intro x hx
    exact getE_set_other m (Ne.symm hx) v
  have hanc : ∀ p, Desc p m → p = 0 := by
    intro p hd
    rcases anc_of_pc hpcm hd with he | hd0
    · exact he
    · exact absurd (desc_lt hd0) (by omega)
  have hsd : ∀ b : List Int, b.length = a.length →
      (∀ p j, j ≤ cap - 1 → Desc p j → p ≠ m → mmRel b p j) →
      (∀ p, Desc p m → mmRel b p m) →
      MMInv (mmheap_sift_down b m (cap - 1)) cap := by
    intro b hblen hInvX hUpX
    have heq : mmheap_sift_down b m (cap - 1) = mmheap_sift_down_max b m (cap - 1) := by
      unfold mmheap_sift_down
      rw [hmlm]
      simp
    rw [heq]
    unfold mmheap_sift_down_max
    intro i j hj hd
    exact sift_down_maxF_restore (cap - 1 + 1 - m) b m (cap - 1)
      (by omega) hmlm (by omega) hInvX hUpX i j (by omega) hd
  by_cases hc : v < getE (a.set m v) 0
  · rw [if_pos hc]
    rw [hs0] at hc
    have hb0 : getE (swapL (a.set m v) 0 m) 0 = v := by
      rw [getE_swap_left (by simp; omega) (by omega), hsm]
    have hbm : getE (swapL (a.set m v) 0 m) m = getE a 0 := by
      rw [getE_swap_right (by simp; omega), hs0]
    have hbo : ∀ x, x ≠ 0 → x ≠ m → getE (swapL (a.set m v) 0 m) x = getE a x := by
      intro x h1 h2
      rw [getE_swap_other (Ne.symm h1) (Ne.symm h2), hso x h2]
    refine hsd _ (by simp [swapL_length]) ?_ ?_
    · intro p j hjr hd hpm
      by_cases hp0 : p = 0
      · subst hp0
        by_cases hjm : j = m
        · refine mmRel_of_min rfl ?_
          rw [hjm, hb0, hbm]
          exact le_of_lt hc
        · refine mmRel_of_min rfl ?_
          have hj0 : j ≠ 0 := by have := desc_lt hd; omega
          rw [hb0, hbo j hj0 hjm]
          have h2 : getE a 0 ≤ getE a j := (hInv 0 j (by omega) hd).1 rfl
          omega
      · by_cases hjm : j = m
        · rw [hjm] at hd
          exact absurd (hanc p hd) hp0
        · have hj0 : j ≠ 0 := by have := desc_lt hd; omega
          exact mmRel_congr (hbo p hp0 hpm) (hbo j hj0 hjm)
            (hInv p j (by omega) hd)
    · intro p hd
      have hp0 := hanc p hd
      subst hp0
      refine mmRel_of_min rfl ?_
      rw [hb0, hbm]
      exact le_of_lt hc
  · rw [if_neg hc]
    rw [hs0] at hc
    push_neg at hc
    refine hsd _ (by simp) ?_ ?_
    · intro p j hjr hd hpm
      by_cases hjm : j = m
      · rw [hjm] at hd ⊢
        have hp0 := hanc p hd
        subst hp0
        refine mmRel_of_min rfl ?_
        rw [hs0, hsm]
        exact hc
      · by_cases hp0 : p = m
        · exact absurd hp0 hpm
        · exact mmRel_congr (hso p hp0) (hso j hjm) (hInv p j (by omega) hd)
    · intro p hd
      have hp0 := hanc p hd
      subst hp0
      refine mmRel_of_min rfl ?_
      rw [hs0, hsm]
      exact hc

/-- C4: `mm_heap_ripple_add` on a heap satisfying the min-max invariant with
`n ≤ capacity` live entries (capacity ≥ 1, buffer at least capacity long):
below capacity it performs an ordinary `mm_heap_add` and reports no overflow;
at capacity it reports the overflow, returns the pre-call maximum as the evicted
value, keeps exactly `capacity` live entries, and the resulting buffer again
satisfies the min-max invariant (including the capacity-1 short circuit). -/
theorem c4_ripple_add_correct (a : List Int) (cap n : Nat) (v : Int)
    (hcap : 1 ≤ cap) (hn : n ≤ cap) (hlen : cap ≤ a.length) (hInv : MMInv a n) :
    (n < cap → ∃ pr, mm_heap_add v a n cap = .ok pr ∧
        mm_heap_ripple_add v a n cap = .ok ((false, 0), pr)) ∧
    (n = cap → ∃ mv a2, mm_heap_ripple_add v a n cap = .ok ((true, mv), (a2, cap)) ∧
        (∀ j, j < cap → getE a j ≤ mv) ∧ (∃ j, j < cap ∧ getE a j = mv) ∧
        MMInv a2 cap) := by
  constructor
  · intro hlt
    have hne : n ≠ cap := by omega
    have hbeq : (n == cap) = false := by simp [hne]
    have hadd : mm_heap_add v a n cap = .ok (bubble_up (a.set n v) n, n + 1) := by
      unfold mm_heap_add
      rw [if_pos hlt]
    refine ⟨(bubble_up (a.set n v) n, n + 1), hadd, ?_⟩
    unfold mm_heap_ripple_add
    dsimp only
    rw [hbeq, hadd]
    rfl
  · intro heq
    subst heq
    have hbeq : (n == n) = true := by simp
    unfold mm_heap_ripple_add
    dsimp only
    rw [hbeq]
    rw [if_neg (by simp)]
    by_cases h1 : 1 < n
    · rw [if_pos h1, if_pos h1]
      refine ⟨getE a (max_child a 0 (n - 1)).2, _, rfl, ?_, ?_, ?_⟩
      · exact heap_max_at_top a n (by omega) hInv
      · obtain ⟨hcp0, hcr0, -⟩ := max_child_spec a 0 (n - 1) (by simp [left]; omega)
        exact ⟨(max_child a 0 (n - 1)).2, by omega, rfl⟩
      · exact ripple_full_inv a n v _ rfl (by omega) hlen hInv
    · have hn1 : n = 1 := by omega
      rw [if_neg h1, if_neg h1]
      refine ⟨getE a 0, a.set 0 v, rfl, ?_, ?_, ?_⟩
      · intro j hj
        have hj0 : j = 0 := by omega
        rw [hj0]
      · exact ⟨0, by omega, rfl⟩
      · exact MMInv_le_one _ _ (by omega)

theorem pc_parent {j : Nat} (h : 1 ≤ j) : pc (parent j) j := by
  simp only [pc, left, right, parent]
  omega

theorem bool_flip_resolve {x y z : Bool} (h1 : x = !y) (h2 : x ≠ z) : y = z := by
  cases y <;> cases z <;> simp_all

/-- The parent/grandparent-local invariant implies the full descendant-wise
min-max invariant. -/
theorem localInv_imp_MMInv (a : List Int) (n : Nat) (h : localInv a n) : MMInv a n := by
  intro i j
  induction j using Nat.strong_induction_on generalizing i with
  | _ j ih =>
    intro hj hd
    have hj1 : 1 ≤ j := by have := desc_lt hd; omega
    rcases desc_parent_or hd with hpc | hdp
    · have hpj := parent_of_pc hpc
      have hrel := (h j hj).1 (by omega)
      rw [hpj] at hrel
      exact hrel
    · have hip : i < parent j := desc_lt hdp
      have hp1 : 1 ≤ parent j := by omega
      have hpcj : pc (parent j) j := pc_parent hj1
      rcases desc_parent_or hdp with hpc2 | hdg
      · have hgj : gparent j = i := by unfold gparent; rw [parent_of_pc hpc2]
        have hj2 : 2 < j := by
          have h3 := pc_ge hpcj
          have h4 := pc_ge hpc2
          simp only [left] at h3 h4
          omega
        have hrel := (h j hj).2 hj2
        rw [hgj] at hrel
        exact hrel
      · have hig : i < gparent j := desc_lt hdg
        have hg1 : 1 ≤ gparent j := by omega
        have hpcg : pc (gparent j) (parent j) := pc_parent hp1
        have hj2 : 2 < j := by
          have h3 := pc_ge hpcj
          have h4 := pc_ge hpcg
          simp only [left] at h3 h4
          omega
        have hplt : parent j < j := by simp only [parent]; omega
        have hglt : gparent j < j := by simp only [gparent, parent]; omega
        by_cases hpar : min_level (parent j) = min_level i
        · have ihp := ih (parent j) hplt i (by omega) hdp
          have hlocp := (h j hj).1 (by omega)
          refine ⟨fun hc => ?_, fun hc => ?_⟩
          · have e1 := ihp.1 hc
            have e2 := hlocp.1 (by rw [hpar, hc])
            omega
          · have e1 := ihp.2 hc
            have e2 := hlocp.2 (by rw [hpar, hc])
            omega
        · have hflip : min_level (gparent j) = min_level i :=
            bool_flip_resolve (min_level_pc hpcg) hpar
          have ihg := ih (gparent j) hglt i (by omega) hdg
          have hlocg := (h j hj).2 hj2
          refine ⟨fun hc => ?_, fun hc => ?_⟩
          · have e1 := ihg.1 hc
            have e2 := hlocg.1 (by rw [hflip, hc])
            omega
          · have e1 := ihg.2 hc
            have e2 := hlocg.2 (by rw [hflip, hc])
            omega

/-- The two formulations of the min-max invariant agree. -/
theorem MMInv_iff_localInv (a : List Int) (n : Nat) : MMInv a n ↔ localInv a n := by
  constructor
  · intro hInv j hj
    refine ⟨fun h0 => ?_, fun h2 => ?_⟩
    · exact hInv (parent j) j hj (desc_of_pc (pc_parent h0))
    · have hp1 : 1 ≤ parent j := by simp only [parent]; omega
      exact hInv (gparent j) j hj
        (desc_of_gpc ⟨parent j, pc_parent hp1, pc_parent (by omega)⟩)
  · exact localInv_imp_MMInv a n

/-- Witness for C4 at the concrete full heap `[0, 5, 4, 1, 2]` (n = capacity
= 5) and new value `-1`. -/
theorem c4_ripple_add_correct_witness :
    MMInv [0, 5, 4, 1, 2] 5 ∧
    (5 = 5 → ∃ mv a2,
      mm_heap_ripple_add (-1) [0, 5, 4, 1, 2] 5 5 = .ok ((true, mv), (a2, 5)) ∧
      (∀ j, j < 5 → getE [0, 5, 4, 1, 2] j ≤ mv) ∧
      (∃ j, j < 5 ∧ getE [0, 5, 4, 1, 2] j = mv) ∧ MMInv a2 5) :=
  have hInv : MMInv [0, 5, 4, 1, 2] 5 := localInv_imp_MMInv _ _ (by decide)
  ⟨hInv, (c4_ripple_add_correct [0, 5, 4, 1, 2] 5 5 (-1) (by decide) (by decide)
      (by decide) hInv).2⟩
